import Mathlib

/-!
Verification development for the vsearch ingestion pipeline
(`src/main.rs`, `src/lib.rs`).

Strings are modelled as lists of unicode scalar values (`Str := List Char`),
matching Rust `char` iteration.  Machine floats (`f32`) appear only in
`l2_normalize` / `length_weighted_mean`; the claims about them concern
control flow (failure conditions, the zero-norm branch) and are modelled
over exact rationals, with the square root kept as an explicit function
parameter (the only fact used about it, `sqrt 0 = 0`, is exact in IEEE
arithmetic as well).
-/

namespace VSearch

abbrev Str := List Char

/-- Embedding of Rust `char::is_ascii` (`self as u32 <= 0x7F`). -/
def isAsciiC (c : Char) : Bool := c.toNat ≤ 0x7F

/-- Embedding of `estimate_tokens`'s character loop (`src/main.rs:158-172`):
state is the pair `(tokens, ascii_run)`. -/
def tokLoop : Nat → Nat → Str → Nat × Nat
  | tokens, ascii_run, [] => (tokens, ascii_run)
  | tokens, ascii_run, c :: cs =>
    if isAsciiC c then
      if ascii_run + 1 = 3 then tokLoop (tokens + 1) 0 cs
      else tokLoop tokens (ascii_run + 1) cs
    else
      tokLoop ((if ascii_run > 0 then tokens + 1 else tokens) + 1) 0 cs

/-- Embedding of `estimate_tokens` (`src/main.rs:154-179`): run the loop from
`tokens = 0`, `ascii_run = 0`, then flush a trailing partial ASCII run. -/
def estimate_tokens (text : Str) : Nat :=
  let r := tokLoop 0 0 text
  if r.2 > 0 then r.1 + 1 else r.1

/-- Modelled from the spec (4.1): each maximal run of `n` consecutive ASCII
characters contributes `ceil(n / 3)` tokens and each non-ASCII character
contributes exactly one token.  Written from the spec's words, to be compared
with `estimate_tokens`. -/
def tokensSpec : Str → Nat
  | [] => 0
  | c :: cs =>
    if isAsciiC c then
      (1 + (cs.takeWhile isAsciiC).length + 2) / 3
        + tokensSpec (cs.dropWhile isAsciiC)
    else 1 + tokensSpec cs
termination_by s => s.length
decreasing_by
  · simp only [List.length_cons]
    exact Nat.lt_succ_of_le (List.dropWhile_sublist _).length_le
  · simp

/-- Embedding of Rust `str::split_inclusive` over a character predicate, as
used by `split_by_punctuation` (`src/main.rs:181-183`): pieces end right
after a matching character, the final piece may lack one, no empty pieces. -/
def splitInclusiveP (p : Char → Bool) : Str → List Str
  | [] => []
  | c :: cs =>
    if p c then [c] :: splitInclusiveP p cs
    else
      match splitInclusiveP p cs with
      | [] => [[c]]
      | u :: us => (c :: u) :: us

/-- Embedding of `split_by_punctuation` (`src/main.rs:181-183`). -/
def split_by_punctuation (text : Str) (seps : List Char) : List Str :=
  splitInclusiveP (fun c => seps.contains c) text

/-- The fixed separator set passed by the chunker (`src/main.rs:201`). -/
def chunkSeps : List Char := ['。', '！', '？', '；', '\n']

/-- Embedding of Rust `str::split("\n")` over `Str`: split on each newline,
separators removed; the empty string yields one empty piece. -/
def splitOnChar (sep : Char) : Str → List Str
  | [] => [[]]
  | c :: cs =>
    if c = sep then [] :: splitOnChar sep cs
    else
      match splitOnChar sep cs with
      | [] => [[c]]
      | u :: us => (c :: u) :: us

/-- The Unicode White_Space code points recognised by Rust
`char::is_whitespace`. -/
def isRustWhitespace (c : Char) : Bool :=
  c = ' ' || c = '\t' || c = '\n' || (0x0B ≤ c.toNat && c.toNat ≤ 0x0D)
    || c.toNat = 0x85 || c.toNat = 0xA0 || c.toNat = 0x1680
    || (0x2000 ≤ c.toNat && c.toNat ≤ 0x200A)
    || c.toNat = 0x2028 || c.toNat = 0x2029
    || c.toNat = 0x202F || c.toNat = 0x205F || c.toNat = 0x3000

/-- Embedding of Rust `str::trim` (`src/main.rs:196`): drop leading and
trailing whitespace. -/
def rustTrim (s : Str) : Str :=
  ((s.dropWhile isRustWhitespace).reverse.dropWhile isRustWhitespace).reverse

/-- State of the chunker's main loop (`src/main.rs:190-192`).  The Rust `Vec`
buffer is kept in reverse: the head of `buffer` is the most recently pushed
unit, so Rust `push`/`pop` become `cons`/head-tail. -/
structure ChunkState where
  chunks : List (List Str)
  buffer : List Str
  buffer_tokens : Nat
deriving DecidableEq

/-- Embedding of the rollback `while` loop (`src/main.rs:218-224`): pop units
from the tail of the buffer (head of the reversed list) while the accumulator
exceeds `target_tokens` and more than one unit remains.  Returns the remaining
buffer (reversed), its accumulator, and the popped units in Rust `Vec` order
of the rebuilt buffer (i.e. original text order). -/
def rollbackLoop (target : Nat) : List Str → Nat → List Str → List Str × Nat × List Str
  | [], tokens, rb => ([], tokens, rb)
  | [u], tokens, rb => ([u], tokens, rb)
  | last :: rest, tokens, rb =>
    if tokens > target then
      rollbackLoop target rest (tokens - estimate_tokens last) (last :: rb)
    else (last :: rest, tokens, rb)

/-- Embedding of the per-unit body of the chunker loop (`src/main.rs:202-240`):
push the unit; if the accumulator stays within `max_tokens` continue, else
roll back, flush the buffer as a chunk (kept here as its list of units, in
text order), and rebuild the buffer from the rolled-back units with the
accumulator recomputed. -/
def pushUnit (target max : Nat) (st : ChunkState) (unit : Str) : ChunkState :=
  let t := estimate_tokens unit
  let buffer := unit :: st.buffer
  let buffer_tokens := st.buffer_tokens + t
  if buffer_tokens ≤ max then ⟨st.chunks, buffer, buffer_tokens⟩
  else
    let r := rollbackLoop target buffer buffer_tokens []
    let chunks := if r.1 ≠ [] then st.chunks ++ [r.1.reverse] else st.chunks
    ⟨chunks, r.2.2.reverse, (r.2.2.map estimate_tokens).sum⟩

/-- Embedding of one paragraph iteration of the chunker (`src/main.rs:195-240`):
trim, skip if empty, otherwise feed the paragraph's punctuation units to
`pushUnit`. -/
def paraStep (target max : Nat) (st : ChunkState) (para : Str) : ChunkState :=
  let para := rustTrim para
  if para = [] then st
  else (split_by_punctuation para chunkSeps).foldl (pushUnit target max) st

/-- Embedding of the paragraph iteration of `chunk_chinese_text_backward`
(`src/main.rs:195-241`). -/
def chunkFold (target max : Nat) (text : Str) : ChunkState :=
  (splitOnChar '\n' text).foldl (paraStep target max) ⟨[], [], 0⟩

/-- The chunker's output with each chunk kept as its list of constituent
units; `chunk_chinese_text_backward` is the per-chunk concatenation of this
(`buffer.concat()` at `src/main.rs:228` and `244`). -/
def chunk_units (text : Str) (target max : Nat) : List (List Str) :=
  let st := chunkFold target max text
  if st.buffer ≠ [] then st.chunks ++ [st.buffer.reverse] else st.chunks

/-- Embedding of `chunk_chinese_text_backward` (`src/main.rs:185-248`). -/
def chunk_chinese_text_backward (text : Str) (target max : Nat) : List Str :=
  (chunk_units text target max).map List.flatten

/-- Finish step of the estimator: flush a pending partial ASCII run. -/
def tokFinish (r : Nat × Nat) : Nat := if r.2 > 0 then r.1 + 1 else r.1

/-- All units absorbed by a chunker state, in text order. -/
def stUnits (st : ChunkState) : List Str := st.chunks.flatten ++ st.buffer.reverse

/-- Invariant maintained by the chunker loop: the accumulator is the sum of
the buffered units' estimates, every flushed chunk and buffered unit is
non-empty, and every flushed chunk made of more than one unit has estimate
sum at most `target`. -/
def ChunkInv (target : Nat) (st : ChunkState) : Prop :=
  st.buffer_tokens = (st.buffer.map estimate_tokens).sum
    ∧ (∀ bu ∈ st.chunks, bu ≠ [] ∧ ∀ u ∈ bu, u ≠ [])
    ∧ (∀ u ∈ st.buffer, u ≠ [])
    ∧ (∀ bu ∈ st.chunks, 1 < bu.length → (bu.map estimate_tokens).sum ≤ target)

/-- The cleaned text of a document: paragraphs (split on newlines) trimmed,
with newline structure collapsed to plain ordering. -/
def cleanedText (text : Str) : Str := ((splitOnChar '\n' text).map rustTrim).flatten

/-- Embedding of the inner accumulation step of `length_weighted_mean`
(`src/main.rs:278-284`): add `emb[i] * w` to each of the `dim` components of
`result` and `w` to the weight sum.  Rust indexing `emb[i]` for
`i in 0..dim` panics (modelled as `none`) when the vector is shorter than
`dim`; components beyond `dim` of a longer vector are never read. -/
def lwmStep (dim : Nat) (acc : Option (List ℚ × ℚ)) (p : List ℚ × Nat) :
    Option (List ℚ × ℚ) :=
  match acc with
  | none => none
  | some (result, weight_sum) =>
    let w : ℚ := (p.2 : ℚ)
    if dim ≤ p.1.length then
      some ((result.zip p.1).map (fun q => q.1 + q.2 * w), weight_sum + w)
    else none

/-- Embedding of `length_weighted_mean` (`src/main.rs:273-293`) over exact
rationals.  `embeddings[0]` on an empty input and out-of-range indexing are
Rust panics, modelled as `none`.  The iteration runs over
`embeddings.iter().zip(lengths.iter())`, so unpaired tails are ignored. -/
def length_weighted_mean (embeddings : List (List ℚ)) (lengths : List Nat) :
    Option (List ℚ) :=
  match embeddings with
  | [] => none
  | e0 :: _ =>
    let dim := e0.length
    match (embeddings.zip lengths).foldl (lwmStep dim)
        (some (List.replicate dim 0, 0)) with
    | none => none
    | some (result, weight_sum) =>
      if 0 < weight_sum then some (result.map (· / weight_sum)) else some result

/-- Sum of squared components, the argument of the square root in
`l2_normalize` (`src/main.rs:251`). -/
def sumsq (v : List ℚ) : ℚ := (v.map (fun x => x * x)).sum

/-- Embedding of `l2_normalize` (`src/main.rs:250-257`).  The `f32` square
root is an explicit parameter `sq`; the claims proved below use only its
value at `0`, where IEEE square root is exact. -/
def l2_normalize (sq : ℚ → ℚ) (v : List ℚ) : List ℚ :=
  let norm := sq (sumsq v)
  if 0 < norm then v.map (· / norm) else v

/-- The fields of a stored `Case` record (`src/lib.rs:20-51`) read by the
ingestion loop. -/
structure Case where
  case_type : Str
  full_text : Str
deriving DecidableEq

/-- Rust `String::len` is the UTF-8 byte length (`chunk.len()` at
`src/main.rs:100`). -/
def utf8Len (s : Str) : Nat := (s.map Char.utf8Size).sum

/-- Observable actions of the ingestion loop, in program order: an embedding
call with its input batch, an upload call with its point identifiers, and a
progress write with the stored identifier. -/
inductive Event where
  | embed (docs : List Str)
  | upload (ids : List Nat)
  | progressWrite (id : Nat)
deriving DecidableEq

/-- Mutable state of the ingestion loop (`src/main.rs:60-62`): the pending
batch of single-chunk documents, their identifiers, and the `lengths` vector
(which the code never clears). -/
structure IngestState where
  documents : List Str
  ids : List Nat
  lengths : List Nat
deriving DecidableEq

/-- Embedding of one iteration of the ingestion loop body
(`src/main.rs:71-122`) for a stored `(id, case)` pair: skip documents at or
below the startup progress value, filter by category and emptiness, chunk the
stripped text with the hard-coded budgets `512, 512`; a single-chunk document
joins the pending batch, a multi-chunk document triggers an immediate
embedding call on `documents` (the pending batch — exactly what the code
passes) plus an upload under its own identifier; finally flush the batch when
it has reached `batch_size`, writing the current identifier as progress. -/
def stepDoc (strip : Str → Str) (batch_size progress : Nat) (st : IngestState)
    (doc : Nat × Case) : IngestState × List Event :=
  if doc.1 ≤ progress then (st, [])
  else if doc.2.case_type ≠ "刑事案件".data then (st, [])
  else if doc.2.full_text = [] then (st, [])
  else
    let full_text := strip doc.2.full_text
    let chunks := chunk_chinese_text_backward full_text 512 512
    let stev :=
      if chunks.length = 1 then
        (⟨st.documents ++ chunks, st.ids ++ [doc.1], st.lengths⟩, ([] : List Event))
      else
        (⟨st.documents, st.ids, st.lengths ++ chunks.map utf8Len⟩,
          [Event.embed st.documents, Event.upload [doc.1]])
    if batch_size ≤ stev.1.documents.length then
      (⟨[], [], stev.1.lengths⟩,
        stev.2 ++ [Event.embed stev.1.documents, Event.upload stev.1.ids,
          Event.progressWrite doc.1])
    else stev

/-- Iteration of `stepDoc` over the store's documents in key order. -/
def runDocs (strip : Str → Str) (batch_size progress : Nat) :
    IngestState → List (Nat × Case) → IngestState × List Event
  | st, [] => (st, [])
  | st, d :: ds =>
    let se := stepDoc strip batch_size progress st d
    let rest := runDocs strip batch_size progress se.1 ds
    (rest.1, se.2 ++ rest.2)

/-- Embedding of the ingestion pass (`src/main.rs:71-134`): the main loop
followed by the final flush of a non-empty pending batch (which performs no
progress write). -/
def runIngestion (strip : Str → Str) (batch_size progress : Nat)
    (docs : List (Nat × Case)) : IngestState × List Event :=
  let r := runDocs strip batch_size progress ⟨[], [], []⟩ docs
  if r.1.documents ≠ [] then
    (⟨[], [], r.1.lengths⟩,
      r.2 ++ [Event.embed r.1.documents, Event.upload r.1.ids])
  else r

/-- The sequence of persisted progress values in a trace. -/
def pwrites (tr : List Event) : List Nat :=
  tr.filterMap fun e =>
    match e with
    | Event.progressWrite v => some v
    | _ => none

/-- Adjacency condition: a progress write may only directly follow an upload
whose last point identifier is the written value. -/
def writeAfterUpload : Event → Event → Bool
  | Event.upload ids, Event.progressWrite v => ids.getLast? = some v
  | _, Event.progressWrite _ => false
  | _, _ => true

/-- A trace does not begin with a progress write. -/
def headNotWrite : List Event → Bool
  | Event.progressWrite _ :: _ => false
  | _ => true

/-- A concrete single-chunk criminal case. -/
def caseA : Case := ⟨"刑事案件".data, "一。".data⟩

/-- A second concrete single-chunk criminal case. -/
def caseB : Case := ⟨"刑事案件".data, "二。".data⟩

/-- A criminal-case text of two sentence units totalling 513 estimated
tokens, which the hard-coded budgets `512, 512` split into two chunks. -/
def longText : Str := List.replicate 256 '三' ++ '。' :: List.replicate 256 '四'

/-- A concrete multi-chunk criminal case. -/
def caseC : Case := ⟨"刑事案件".data, longText⟩

/-! Lemmas about the token estimator. -/

theorem tokLoop_append (xs ys : Str) (t r : Nat) :
    tokLoop t r (xs ++ ys) = tokLoop (tokLoop t r xs).1 (tokLoop t r xs).2 ys := by
  induction xs generalizing t r with
  | nil => simp [tokLoop]
  | cons c cs ih =>
    simp only [List.cons_append, tokLoop]
    split
    · split
      · exact ih _ _
      · exact ih _ _
    · exact ih _ _

theorem tokLoop_shift (xs : Str) (t r : Nat) :
    tokLoop t r xs = (t + (tokLoop 0 r xs).1, (tokLoop 0 r xs).2) := by
  induction xs generalizing t r with
  | nil => simp [tokLoop]
  | cons c cs ih =>
    simp only [tokLoop]
    by_cases hc : isAsciiC c
    · simp only [hc, if_true]
      by_cases h3 : r + 1 = 3
      · simp only [if_pos h3]
        rw [ih (t + 1) 0, ih (0 + 1) 0]
        simp only [Prod.mk.injEq, and_true]
        omega
      · simp only [if_neg h3]
        exact ih t (r + 1)
    · simp only [hc, Bool.false_eq_true, if_false]
      by_cases hr : r > 0
      · simp only [if_pos hr]
        rw [ih (t + 1 + 1) 0, ih (0 + 1 + 1) 0]
        simp only [Prod.mk.injEq, and_true]
        omega
      · simp only [if_neg hr]
        rw [ih (t + 1) 0, ih (0 + 1) 0]
        simp only [Prod.mk.injEq, and_true]
        omega

theorem tokLoop_run_lt (xs : Str) (t r : Nat) (h : r < 3) :
    (tokLoop t r xs).2 < 3 := by
  induction xs generalizing t r with
  | nil => simpa [tokLoop]
  | cons c cs ih =>
    simp only [tokLoop]
    by_cases hc : isAsciiC c
    · simp only [hc, if_true]
      by_cases h3 : r + 1 = 3
      · simp only [if_pos h3]
        exact ih _ _ (by omega)
      · simp only [if_neg h3]
        exact ih _ _ (by omega)
    · simp only [hc, Bool.false_eq_true, if_false]
      exact ih _ _ (by omega)

theorem estimate_tokens_eq_finish (xs : Str) :
    estimate_tokens xs = tokFinish (tokLoop 0 0 xs) := rfl

theorem tokFinish_shift (xs : Str) (t r : Nat) :
    tokFinish (tokLoop t r xs) = t + tokFinish (tokLoop 0 r xs) := by
  rw [tokLoop_shift]
  simp only [tokFinish]
  split <;> omega

/-- Chain of inequalities between estimator results started in the three
possible ASCII-run states. -/
theorem tokFinish_chain (xs : Str) :
    tokFinish (tokLoop 0 0 xs) ≤ tokFinish (tokLoop 0 1 xs)
      ∧ tokFinish (tokLoop 0 1 xs) ≤ tokFinish (tokLoop 0 2 xs)
      ∧ tokFinish (tokLoop 0 2 xs) ≤ 1 + tokFinish (tokLoop 0 0 xs) := by
  induction xs with
  | nil => simp [tokLoop, tokFinish]
  | cons c cs ih =>
    by_cases hc : isAsciiC c
    · simp only [tokLoop, hc, if_true]
      norm_num
      rw [tokFinish_shift cs 1 0]
      exact ⟨ih.2.1, ih.2.2, by have := ih.1; omega⟩
    · simp only [tokLoop, hc, Bool.false_eq_true, if_false]
      norm_num
      rw [tokFinish_shift cs 1 0, tokFinish_shift cs 2 0]
      omega

theorem tokFinish_start_le (xs : Str) (r : Nat) (hr : r < 3) :
    tokFinish (tokLoop 0 r xs) ≤ (if r > 0 then 1 else 0) + tokFinish (tokLoop 0 0 xs) := by
  interval_cases r
  · simp
  · have h := tokFinish_chain xs
    simp only [show (1 : Nat) > 0 from by omega, if_true]
    omega
  · have h := tokFinish_chain xs
    simp only [show (2 : Nat) > 0 from by omega, if_true]
    omega

theorem tokFinish_nonascii_cons (d : Char) (hd : isAsciiC d = false) (ds : Str) (r : Nat) :
    tokFinish (tokLoop 0 r (d :: ds)) =
      (if r > 0 then 1 else 0) + 1 + tokFinish (tokLoop 0 0 ds) := by
  have h : tokLoop 0 r (d :: ds) = tokLoop ((if r > 0 then 0 + 1 else 0) + 1) 0 ds := by
    simp [tokLoop, hd]
  rw [h, tokFinish_shift]

theorem tokLoop_ascii_cons_three (a : Char) (ha : isAsciiC a = true) (as : Str) (r : Nat)
    (h3 : r + 1 = 3) : tokLoop 0 r (a :: as) = tokLoop 1 0 as := by
  simp [tokLoop, ha, h3]

theorem tokLoop_ascii_cons_lt (a : Char) (ha : isAsciiC a = true) (as : Str) (r : Nat)
    (h3 : r + 1 ≠ 3) : tokLoop 0 r (a :: as) = tokLoop 0 (r + 1) as := by
  simp [tokLoop, ha, h3]

/-- Processing a maximal ASCII run from pending-run state `r` contributes
ceil((r + n) / 3) tokens, after which the estimator is back in a fresh
state. -/
theorem tokFinish_ascii_run (as : Str) (has : ∀ c ∈ as, isAsciiC c = true) :
    ∀ (rest : Str), (rest = [] ∨ ∃ d ds, rest = d :: ds ∧ isAsciiC d = false) →
    ∀ r : Nat, r < 3 →
    tokFinish (tokLoop 0 r (as ++ rest)) =
      (r + as.length + 2) / 3 + tokFinish (tokLoop 0 0 rest) := by
  induction as with
  | nil =>
    intro rest hrest r hr
    rcases hrest with h | ⟨d, ds, h, hd⟩
    · subst h
      simp only [List.append_nil, List.length_nil]
      simp only [tokLoop, tokFinish]
      interval_cases r <;> simp
    · subst h
      simp only [List.nil_append, List.length_nil]
      rw [tokFinish_nonascii_cons d hd ds r, tokFinish_nonascii_cons d hd ds 0]
      interval_cases r
      all_goals norm_num
      all_goals omega
  | cons a as' ih =>
    intro rest hrest r hr
    have ha : isAsciiC a = true := has a (by simp)
    have has' : ∀ c ∈ as', isAsciiC c = true := fun c hc => has c (by simp [hc])
    simp only [List.cons_append, List.length_cons]
    by_cases h3 : r + 1 = 3
    · rw [tokLoop_ascii_cons_three a ha _ r h3, tokFinish_shift,
        ih has' rest hrest 0 (by omega)]
      omega
    · rw [tokLoop_ascii_cons_lt a ha _ r h3, ih has' rest hrest (r + 1) (by omega)]
      omega

/-- The estimator loop agrees with the spec's maximal-ASCII-run description. -/
theorem estimate_eq_tokensSpec (cs : Str) : estimate_tokens cs = tokensSpec cs := by
  match cs with
  | [] => simp [estimate_tokens, tokLoop, tokensSpec]
  | c :: cs' =>
    by_cases hc : isAsciiC c
    · have hsplit : c :: cs' = (c :: cs'.takeWhile isAsciiC) ++ cs'.dropWhile isAsciiC := by
        simp [List.takeWhile_append_dropWhile]
      have htake : ∀ x ∈ c :: cs'.takeWhile isAsciiC, isAsciiC x = true := by
        intro x hx
        rcases List.mem_cons.1 hx with h | h
        · subst h; exact hc
        · exact List.mem_takeWhile_imp h
      have hdrop : cs'.dropWhile isAsciiC = []
          ∨ ∃ d ds, cs'.dropWhile isAsciiC = d :: ds ∧ isAsciiC d = false := by
        cases h : cs'.dropWhile isAsciiC with
        | nil => exact Or.inl rfl
        | cons d ds =>
          refine Or.inr ⟨d, ds, rfl, ?_⟩
          have := List.head_dropWhile_not isAsciiC cs' (h ▸ List.cons_ne_nil d ds)
          simpa [h] using this
      have ih := estimate_eq_tokensSpec (cs'.dropWhile isAsciiC)
      rw [estimate_tokens_eq_finish]
      conv_lhs => rw [hsplit]
      rw [tokFinish_ascii_run _ htake _ hdrop 0 (by omega)]
      rw [← estimate_tokens_eq_finish, ih]
      simp [tokensSpec, hc]
      omega
    · have hcf : isAsciiC c = false := by simpa using hc
      have h1 : estimate_tokens (c :: cs') = 1 + estimate_tokens cs' := by
        rw [estimate_tokens_eq_finish, estimate_tokens_eq_finish,
          tokFinish_nonascii_cons c hcf cs' 0]
        norm_num
      rw [h1, estimate_eq_tokensSpec cs']
      simp [tokensSpec, hc]
termination_by cs.length
decreasing_by
  all_goals simp only [List.length_cons]
  · exact Nat.lt_succ_of_le (List.dropWhile_sublist _).length_le
  · omega

/-- Subadditivity of the estimator under concatenation: joining two texts can
only merge the boundary ASCII runs, never create tokens. -/
theorem estimate_tokens_append_le (xs ys : Str) :
    estimate_tokens (xs ++ ys) ≤ estimate_tokens xs + estimate_tokens ys := by
  rw [estimate_tokens_eq_finish, estimate_tokens_eq_finish, estimate_tokens_eq_finish,
    tokLoop_append]
  rw [tokFinish_shift _ (tokLoop 0 0 xs).1 (tokLoop 0 0 xs).2]
  have hlt : (tokLoop 0 0 xs).2 < 3 := tokLoop_run_lt xs 0 0 (by omega)
  have hle := tokFinish_start_le ys (tokLoop 0 0 xs).2 hlt
  have hx : tokFinish (tokLoop 0 0 xs)
      = (tokLoop 0 0 xs).1 + (if (tokLoop 0 0 xs).2 > 0 then 1 else 0) := by
    simp only [tokFinish]
    split <;> omega
  omega

/-- The estimate of a concatenation of units is at most the sum of the
per-unit estimates. -/
theorem estimate_tokens_flatten_le (units : List Str) :
    estimate_tokens units.flatten ≤ (units.map estimate_tokens).sum := by
  induction units with
  | nil => simp [estimate_tokens, tokLoop]
  | cons u us ih =>
    simp only [List.flatten_cons, List.map_cons, List.sum_cons]
    calc estimate_tokens (u ++ us.flatten)
        ≤ estimate_tokens u + estimate_tokens us.flatten := estimate_tokens_append_le _ _
      _ ≤ estimate_tokens u + (us.map estimate_tokens).sum := by omega

/-! Lemmas about the splitting functions. -/

theorem splitInclusiveP_flatten (p : Char → Bool) (cs : Str) :
    (splitInclusiveP p cs).flatten = cs := by
  induction cs with
  | nil => rfl
  | cons c cs ih =>
    simp only [splitInclusiveP]
    by_cases hc : p c
    · simp [hc, ih]
    · simp only [hc, Bool.false_eq_true, if_false]
      cases h : splitInclusiveP p cs with
      | nil =>
        rw [h] at ih
        simp only [List.flatten_nil] at ih
        subst ih
        rfl
      | cons u us =>
        rw [h] at ih
        simp only [List.flatten_cons] at ih
        simp only [List.flatten_cons, List.cons_append, ih]

theorem splitInclusiveP_ne_nil (p : Char → Bool) (cs : Str) :
    ∀ u ∈ splitInclusiveP p cs, u ≠ [] := by
  induction cs with
  | nil => simp [splitInclusiveP]
  | cons c cs ih =>
    simp only [splitInclusiveP]
    by_cases hc : p c
    · simp only [hc, if_true]
      intro u hu
      rcases List.mem_cons.1 hu with h | h
      · simp [h]
      · exact ih u h
    · simp only [hc, Bool.false_eq_true, if_false]
      cases h : splitInclusiveP p cs with
      | nil => simp
      | cons v vs =>
        intro u hu
        rcases List.mem_cons.1 hu with h' | h'
        · simp [h']
        · exact ih u (h ▸ List.mem_cons_of_mem v h')

theorem splitInclusiveP_sep_last (p : Char → Bool) (cs : Str) :
    ∀ u ∈ splitInclusiveP p cs, ∀ c ∈ u.dropLast, p c = false := by
  induction cs with
  | nil => simp [splitInclusiveP]
  | cons c cs ih =>
    simp only [splitInclusiveP]
    by_cases hc : p c
    · simp only [hc, if_true]
      intro u hu
      rcases List.mem_cons.1 hu with h | h
      · simp [h]
      · exact ih u h
    · simp only [hc, Bool.false_eq_true, if_false]
      cases h : splitInclusiveP p cs with
      | nil =>
        intro u hu
        rcases List.mem_cons.1 hu with h' | h'
        · simp [h']
        · simp at h'
      | cons v vs =>
        intro u hu
        rcases List.mem_cons.1 hu with h' | h'
        · subst h'
          have hv : v ≠ [] := splitInclusiveP_ne_nil p cs v (h ▸ List.mem_cons_self v vs)
          intro d hd
          rw [List.dropLast_cons_of_ne_nil hv] at hd
          rcases List.mem_cons.1 hd with h'' | h''
          · subst h''
            simpa using hc
          · exact ih v (h ▸ List.mem_cons_self v vs) d h''
        · exact ih u (h ▸ List.mem_cons_of_mem v h')

/-- Characters of any piece of `splitOnChar` come from the original list. -/
theorem splitOnChar_subset (sep : Char) (cs : Str) :
    ∀ para ∈ splitOnChar sep cs, ∀ c ∈ para, c ∈ cs := by
  induction cs with
  | nil => simp [splitOnChar]
  | cons c cs ih =>
    simp only [splitOnChar]
    by_cases hc : c = sep
    · simp only [hc, if_true]
      intro para hpara d hd
      rcases List.mem_cons.1 hpara with h | h
      · simp [h] at hd
      · exact List.mem_cons_of_mem _ (ih para h d hd)
    · simp only [hc, if_false]
      cases h : splitOnChar sep cs with
      | nil =>
        intro para hpara d hd
        rcases List.mem_cons.1 hpara with h' | h'
        · subst h'
          exact List.mem_cons.2 (Or.inl (by simpa using hd))
        · simp at h'
      | cons v vs =>
        intro para hpara d hd
        rcases List.mem_cons.1 hpara with h' | h'
        · subst h'
          rcases List.mem_cons.1 hd with h'' | h''
          · simp [h'']
          · exact List.mem_cons_of_mem _ (ih v (h ▸ List.mem_cons_self v vs) d h'')
        · exact List.mem_cons_of_mem _ (ih para (h ▸ List.mem_cons_of_mem v h') d hd)

theorem rustTrim_eq_nil (s : Str) (h : ∀ c ∈ s, isRustWhitespace c = true) :
    rustTrim s = [] := by
  have h1 : s.dropWhile isRustWhitespace = [] := by
    rw [List.dropWhile_eq_nil_iff]
    exact fun c hc => h c hc
  simp [rustTrim, h1]

/-! Lemmas about the chunker. -/

/-- The rollback loop redistributes the buffer between the kept part and the
rolled-back part, preserving every unit and its order. -/
theorem rollbackLoop_units (target : Nat) (B : List Str) :
    ∀ (tok : Nat) (rb : List Str),
    (rollbackLoop target B tok rb).1.reverse ++ (rollbackLoop target B tok rb).2.2
      = B.reverse ++ rb := by
  induction B with
  | nil => intro tok rb; simp [rollbackLoop]
  | cons last rest ih =>
    intro tok rb
    match rest with
    | [] => simp [rollbackLoop]
    | r2 :: rest' =>
      rw [rollbackLoop]
      · split
        · rw [ih _ _]
          simp
        · simp
      · simp

theorem rollbackLoop_fst_ne_nil (target : Nat) (B : List Str) (hB : B ≠ []) :
    ∀ (tok : Nat) (rb : List Str), (rollbackLoop target B tok rb).1 ≠ [] := by
  induction B with
  | nil => exact absurd rfl hB
  | cons last rest ih =>
    intro tok rb
    match rest with
    | [] => simp [rollbackLoop]
    | r2 :: rest' =>
      rw [rollbackLoop]
      · split
        · exact ih (by simp) _ _
        · simp
      · simp

/-- On entry with an accurate accumulator, the rollback loop exits with an
accurate accumulator, which is at most `target` whenever more than one unit
remains. -/
theorem rollbackLoop_exit (target : Nat) (B : List Str) :
    ∀ (tok : Nat) (rb : List Str), tok = (B.map estimate_tokens).sum →
    (rollbackLoop target B tok rb).2.1
        = ((rollbackLoop target B tok rb).1.map estimate_tokens).sum
      ∧ (1 < (rollbackLoop target B tok rb).1.length →
          (rollbackLoop target B tok rb).2.1 ≤ target) := by
  induction B with
  | nil =>
    intro tok rb htok
    simp [rollbackLoop, htok]
  | cons last rest ih =>
    intro tok rb htok
    match rest with
    | [] =>
      simp only [rollbackLoop]
      exact ⟨htok, by simp⟩
    | r2 :: rest' =>
      rw [rollbackLoop]
      · split
        · refine ih _ _ ?_
          simp only [List.map_cons, List.sum_cons] at htok ⊢
          omega
        · rename_i hle
          refine ⟨show tok = ((last :: r2 :: rest').map estimate_tokens).sum from htok,
            fun _ => ?_⟩
          show tok ≤ target
          omega
      · simp

/-- Pushing a unit extends the absorbed-unit trace by exactly that unit. -/
theorem pushUnit_units (target max : Nat) (st : ChunkState) (u : Str) :
    stUnits (pushUnit target max st u) = stUnits st ++ [u] := by
  simp only [pushUnit]
  split
  · simp [stUnits]
  · have h := rollbackLoop_units target (u :: st.buffer)
      (st.buffer_tokens + estimate_tokens u) []
    split
    · simp only [stUnits, List.flatten_append, List.flatten_cons, List.flatten_nil,
        List.append_nil, List.reverse_reverse]
      simp only [List.append_nil] at h
      rw [List.append_assoc, h]
      simp
    · rename_i hnil
      push_neg at hnil
      rw [hnil] at h
      simp only [List.reverse_nil, List.nil_append, List.append_nil] at h
      simp [stUnits, h]

theorem pushUnit_inv (target max : Nat) (st : ChunkState) (u : Str) (hu : u ≠ [])
    (h : ChunkInv target st) : ChunkInv target (pushUnit target max st u) := by
  obtain ⟨htok, hchunks, hbuf, hbound⟩ := h
  simp only [pushUnit]
  split
  · refine ⟨?_, hchunks, ?_, hbound⟩
    · simp only [List.map_cons, List.sum_cons]
      omega
    · intro v hv
      rcases List.mem_cons.1 hv with h | h
      · subst h; exact hu
      · exact hbuf v h
  · have hunits := rollbackLoop_units target (u :: st.buffer)
      (st.buffer_tokens + estimate_tokens u) []
    simp only [List.append_nil] at hunits
    have hexit := rollbackLoop_exit target (u :: st.buffer)
      (st.buffer_tokens + estimate_tokens u) []
      (by simp only [List.map_cons, List.sum_cons]; omega)
    have hmem : ∀ v, v ∈ (rollbackLoop target (u :: st.buffer)
        (st.buffer_tokens + estimate_tokens u) []).1
        ∨ v ∈ (rollbackLoop target (u :: st.buffer)
          (st.buffer_tokens + estimate_tokens u) []).2.2 → v ∈ u :: st.buffer := by
      intro v hv
      have : v ∈ (rollbackLoop target (u :: st.buffer)
          (st.buffer_tokens + estimate_tokens u) []).1.reverse
          ++ (rollbackLoop target (u :: st.buffer)
            (st.buffer_tokens + estimate_tokens u) []).2.2 := by
        rcases hv with h | h
        · exact List.mem_append.2 (Or.inl (List.mem_reverse.2 h))
        · exact List.mem_append.2 (Or.inr h)
      rw [hunits] at this
      exact List.mem_reverse.1 this
    have hne : ∀ v ∈ u :: st.buffer, v ≠ [] := by
      intro v hv
      rcases List.mem_cons.1 hv with h | h
      · subst h; exact hu
      · exact hbuf v h
    refine ⟨?_, ?_, ?_, ?_⟩
    · rw [List.map_reverse, List.sum_reverse]
    · intro bu hbu
      split at hbu
      · rcases List.mem_append.1 hbu with h | h
        · exact hchunks bu h
        · have hbu' : bu = (rollbackLoop target (u :: st.buffer)
              (st.buffer_tokens + estimate_tokens u) []).1.reverse := by simpa using h
          subst hbu'
          rename_i hr1
          constructor
          · simpa using hr1
          · intro v hv
            exact hne v (hmem v (Or.inl (List.mem_reverse.1 hv)))
      · exact hchunks bu hbu
    · intro v hv
      exact hne v (hmem v (Or.inr (List.mem_reverse.1 hv)))
    · intro bu hbu
      split at hbu
      · rcases List.mem_append.1 hbu with h | h
        · exact hbound bu h
        · have hbu' : bu = (rollbackLoop target (u :: st.buffer)
              (st.buffer_tokens + estimate_tokens u) []).1.reverse := by simpa using h
          subst hbu'
          intro hlen
          rw [List.map_reverse, List.sum_reverse]
          rw [← hexit.1]
          exact hexit.2 (by simpa using hlen)
      · exact hbound bu hbu

theorem foldl_pushUnit_units (target max : Nat) (units : List Str) :
    ∀ st : ChunkState,
    stUnits (units.foldl (pushUnit target max) st) = stUnits st ++ units := by
  induction units with
  | nil => intro st; simp
  | cons u us ih =>
    intro st
    simp only [List.foldl_cons]
    rw [ih, pushUnit_units]
    simp

theorem foldl_pushUnit_inv (target max : Nat) (units : List Str)
    (hunits : ∀ u ∈ units, u ≠ []) :
    ∀ st : ChunkState, ChunkInv target st →
    ChunkInv target (units.foldl (pushUnit target max) st) := by
  induction units with
  | nil => intro st h; simpa
  | cons u us ih =>
    intro st h
    simp only [List.foldl_cons]
    exact ih (fun v hv => hunits v (List.mem_cons_of_mem u hv)) _
      (pushUnit_inv target max st u (hunits u (List.mem_cons_self u us)) h)

theorem paraStep_content (target max : Nat) (st : ChunkState) (para : Str) :
    (stUnits (paraStep target max st para)).flatten
      = (stUnits st).flatten ++ rustTrim para := by
  simp only [paraStep]
  split
  · rename_i h
    simp [h]
  · rw [foldl_pushUnit_units, List.flatten_append, split_by_punctuation,
      splitInclusiveP_flatten]

theorem paraStep_inv (target max : Nat) (st : ChunkState) (para : Str)
    (h : ChunkInv target st) : ChunkInv target (paraStep target max st para) := by
  simp only [paraStep]
  split
  · exact h
  · exact foldl_pushUnit_inv target max _
      (splitInclusiveP_ne_nil _ _) st h

theorem chunkFold_content (target max : Nat) (text : Str) :
    (stUnits (chunkFold target max text)).flatten = cleanedText text := by
  simp only [chunkFold, cleanedText]
  generalize splitOnChar '\n' text = paras
  have main : ∀ (ps : List Str) (st : ChunkState),
      (stUnits (ps.foldl (paraStep target max) st)).flatten
        = (stUnits st).flatten ++ (ps.map rustTrim).flatten := by
    intro ps
    induction ps with
    | nil => intro st; simp
    | cons p ps ih =>
      intro st
      simp only [List.foldl_cons, List.map_cons, List.flatten_cons]
      rw [ih, paraStep_content]
      simp
  rw [main]
  simp [stUnits]

theorem chunkFold_inv (target max : Nat) (text : Str) :
    ChunkInv target (chunkFold target max text) := by
  simp only [chunkFold]
  generalize splitOnChar '\n' text = paras
  have main : ∀ (ps : List Str) (st : ChunkState), ChunkInv target st →
      ChunkInv target (ps.foldl (paraStep target max) st) := by
    intro ps
    induction ps with
    | nil => intro st h; simpa
    | cons p ps ih =>
      intro st h
      exact ih _ (paraStep_inv target max st p h)
  exact main paras _ ⟨by simp, by simp, by simp, by simp⟩

theorem flatten_map_flatten (l : List (List (List Char))) :
    (l.map List.flatten).flatten = l.flatten.flatten := by
  induction l with
  | nil => rfl
  | cons x xs ih => simp [ih]

/-- Every chunk produced by the chunker is a non-empty list of non-empty
units. -/
theorem chunk_units_ne_nil (text : Str) (target max : Nat) :
    ∀ bu ∈ chunk_units text target max, bu ≠ [] ∧ ∀ u ∈ bu, u ≠ [] := by
  intro bu hbu
  obtain ⟨-, hchunks, hbuf, -⟩ := chunkFold_inv target max text
  rw [chunk_units] at hbu
  split at hbu
  · rcases List.mem_append.1 hbu with h | h
    · exact hchunks bu h
    · have hbu' : bu = (chunkFold target max text).buffer.reverse := by simpa using h
      subst hbu'
      rename_i hne
      refine ⟨by simpa using hne, ?_⟩
      intro u hu
      exact hbuf u (List.mem_reverse.1 hu)
  · exact hchunks bu hbu

/-! Claim theorems for the chunker and the token estimator. -/

/-- C2: for every input text and every pair `target_tokens ≤ max_tokens`,
concatenating in order the chunks returned by `chunk_chinese_text_backward`
reproduces the document's cleaned text with newline structure collapsed
(paragraphs trimmed, empty ones dropped), with no character dropped or
duplicated. -/
theorem c2_chunk_coverage (text : Str) (target max : Nat) (h : target ≤ max) :
    (chunk_chinese_text_backward text target max).flatten = cleanedText text := by
  rw [chunk_chinese_text_backward, flatten_map_flatten,
    ← chunkFold_content target max text]
  rw [chunk_units, stUnits]
  split
  · simp
  · rename_i hnil
    push_neg at hnil
    simp [hnil]

/-- Witness for C2 at a concrete two-paragraph document. -/
theorem c2_chunk_coverage_witness :
    (2 : Nat) ≤ 6
      ∧ (chunk_chinese_text_backward "一。\n 二 ".data 2 6).flatten
          = cleanedText "一。\n 二 ".data :=
  ⟨by norm_num, c2_chunk_coverage "一。\n 二 ".data 2 6 (by norm_num)⟩

/-- C3 counterexample: at `text = "一。二二二。三三三三"`, `target = 2`,
`max = 6`, the final chunk consists of the two units `二二二。` and
`三三三三` and has estimated token count 8 > 6, refuting the claim that
every multi-unit chunk satisfies the `max_tokens` bound. -/
theorem c3_token_bound_counterexample :
    (2 : Nat) ≤ 6
      ∧ ¬ (∀ bu ∈ chunk_units "一。二二二。三三三三".data 2 6,
            1 < bu.length → estimate_tokens bu.flatten ≤ 6) := by
  constructor
  · norm_num
  · decide

/-- C3 amended: every chunk other than possibly the last one returned, if it
is the concatenation of more than one sentence unit, satisfies
`estimate_tokens(chunk) ≤ max_tokens`; the final chunk (the end-of-input
buffer flush) is subject to no bound even when it has several units. -/
theorem c3_token_bound_nonfinal (text : Str) (target max : Nat) (h : target ≤ max) :
    ∀ bu ∈ (chunk_units text target max).dropLast,
      1 < bu.length → estimate_tokens bu.flatten ≤ max := by
  intro bu hbu hlen
  obtain ⟨-, -, -, hbound⟩ := chunkFold_inv target max text
  have hmem : bu ∈ (chunkFold target max text).chunks := by
    rw [chunk_units] at hbu
    split at hbu
    · rwa [List.dropLast_concat] at hbu
    · exact (List.dropLast_sublist _).subset hbu
  calc estimate_tokens bu.flatten
      ≤ (bu.map estimate_tokens).sum := estimate_tokens_flatten_le bu
    _ ≤ target := hbound bu hmem hlen
    _ ≤ max := h

/-- Witness for the amended C3 on an input whose non-final chunk has two
units. -/
theorem c3_token_bound_nonfinal_witness :
    (4 : Nat) ≤ 4
      ∧ ∀ bu ∈ (chunk_units "一。二。三三三。".data 4 4).dropLast,
          1 < bu.length → estimate_tokens bu.flatten ≤ 4 :=
  ⟨by norm_num, c3_token_bound_nonfinal "一。二。三三三。".data 4 4 (by norm_num)⟩

/-- C5: `estimate_tokens` is a pure total function computing, for each
maximal run of `n` consecutive ASCII characters, `ceil(n/3)` tokens, and one
token per non-ASCII character (`tokensSpec` is exactly this description);
in particular the four sample values of the specification hold. -/
theorem c5_estimate_tokens_characterization :
    (∀ s : Str, estimate_tokens s = tokensSpec s)
      ∧ estimate_tokens "".data = 0
      ∧ estimate_tokens "abc".data = 1
      ∧ estimate_tokens "汉字".data = 2
      ∧ estimate_tokens "ab汉".data = 2 :=
  ⟨estimate_eq_tokensSpec, by decide, by decide, by decide, by decide⟩

/-- C6: splitting a paragraph at the fixed sentence separators is lossless —
the units concatenate back to the paragraph — and inclusive: every unit is
non-empty and contains separators only as its final character. -/
theorem c6_split_lossless (text : Str) :
    (split_by_punctuation text chunkSeps).flatten = text
      ∧ ∀ u ∈ split_by_punctuation text chunkSeps,
          u ≠ [] ∧ ∀ c ∈ u.dropLast, chunkSeps.contains c = false :=
  ⟨splitInclusiveP_flatten _ _, fun u hu =>
    ⟨splitInclusiveP_ne_nil _ _ u hu,
      fun c hc => splitInclusiveP_sep_last _ _ u hu c hc⟩⟩

/-- Witness for C6 at a concrete paragraph. -/
theorem c6_split_lossless_witness :
    (split_by_punctuation "一。二！三".data chunkSeps).flatten = "一。二！三".data
      ∧ ("一。".data ∈ split_by_punctuation "一。二！三".data chunkSeps
          ∧ "一。".data ≠ []) :=
  ⟨(c6_split_lossless "一。二！三".data).1,
    by decide,
    ((c6_split_lossless "一。二！三".data).2 "一。".data (by decide)).1⟩

/-- C9: the token estimator is subadditive under concatenation, so the
chunker's accumulator — the sum of the buffered units' estimates — bounds the
estimate of any flushed chunk (the concatenation of those units). -/
theorem c9_estimate_subadditive :
    (∀ s t : Str, estimate_tokens (s ++ t) ≤ estimate_tokens s + estimate_tokens t)
      ∧ ∀ units : List Str,
          estimate_tokens units.flatten ≤ (units.map estimate_tokens).sum :=
  ⟨estimate_tokens_append_le, estimate_tokens_flatten_le⟩

/-- C10: a text with no non-whitespace character produces no chunks at all,
and no input ever produces an empty-string chunk. -/
theorem c10_no_empty_chunks :
    (∀ (text : Str) (target max : Nat), (∀ c ∈ text, isRustWhitespace c = true) →
        chunk_chinese_text_backward text target max = [])
      ∧ ∀ (text : Str) (target max : Nat),
          [] ∉ chunk_chinese_text_backward text target max := by
  constructor
  · intro text target max hws
    have hpara : ∀ p ∈ splitOnChar '\n' text, rustTrim p = [] := by
      intro p hp
      exact rustTrim_eq_nil p fun c hc => hws c (splitOnChar_subset '\n' text p hp c hc)
    have hfold : ∀ (ps : List Str), (∀ p ∈ ps, rustTrim p = []) →
        ∀ st : ChunkState, ps.foldl (paraStep target max) st = st := by
      intro ps
      induction ps with
      | nil => intro h st; rfl
      | cons p ps ih =>
        intro h st
        simp only [List.foldl_cons]
        rw [show paraStep target max st p = st from by
          simp [paraStep, h p (List.mem_cons_self p ps)]]
        exact ih (fun q hq => h q (List.mem_cons_of_mem p hq)) st
    have hempty : chunkFold target max text = ⟨[], [], 0⟩ := by
      rw [chunkFold, hfold _ hpara]
    rw [chunk_chinese_text_backward, chunk_units, hempty]
    simp
  · intro text target max hmem
    rw [chunk_chinese_text_backward] at hmem
    rcases List.mem_map.1 hmem with ⟨bu, hbu, hflat⟩
    obtain ⟨hne, hunits⟩ := chunk_units_ne_nil text target max bu hbu
    match bu, hne with
    | u :: bu', _ =>
      have hu : u ≠ [] := hunits u (List.mem_cons_self u bu')
      simp only [List.flatten_cons] at hflat
      exact hu (List.append_eq_nil.1 hflat).1

/-- Witness for C10 at a whitespace-only document. -/
theorem c10_no_empty_chunks_witness :
    (∀ c ∈ " \n\t ".data, isRustWhitespace c = true)
      ∧ chunk_chinese_text_backward " \n\t ".data 5 5 = [] :=
  ⟨by decide, c10_no_empty_chunks.1 " \n\t ".data 5 5 (by decide)⟩

/-! Lemmas about the aggregation. -/

theorem lwm_foldl_none (dim : Nat) (l : List (List ℚ × Nat)) :
    l.foldl (lwmStep dim) none = none := by
  induction l with
  | nil => rfl
  | cons p l ih => simpa [lwmStep] using ih

/-- The accumulation fold fails exactly when some zipped vector is shorter
than the first vector's dimension. -/
theorem lwm_foldl_spec (dim : Nat) (l : List (List ℚ × Nat)) :
    ∀ acc : List ℚ × ℚ,
    (l.foldl (lwmStep dim) (some acc) = none ↔ ∃ p ∈ l, p.1.length < dim) := by
  induction l with
  | nil => intro acc; simp
  | cons p l ih =>
    intro acc
    simp only [List.foldl_cons]
    by_cases hp : dim ≤ p.1.length
    · rw [show lwmStep dim (some acc) p
        = some ((acc.1.zip p.1).map (fun q => q.1 + q.2 * (p.2 : ℚ)), acc.2 + (p.2 : ℚ))
        from by simp [lwmStep, hp]]
      rw [ih]
      constructor
      · intro ⟨q, hq, hlen⟩
        exact ⟨q, List.mem_cons_of_mem p hq, hlen⟩
      · intro ⟨q, hq, hlen⟩
        rcases List.mem_cons.1 hq with h | h
        · subst h; omega
        · exact ⟨q, h, hlen⟩
    · rw [show lwmStep dim (some acc) p = none from by simp [lwmStep, hp]]
      rw [lwm_foldl_none]
      simp only [true_iff]
      exact ⟨p, List.mem_cons_self p l, by omega⟩

/-! Claim theorems for the aggregation. -/

/-- C7 counterexample: on the dimensionally inconsistent input
`[[1], [2, 3]]` with lengths `[1, 1]`, `length_weighted_mean` does not fail
and does not raise any dimension error — it silently ignores the second
vector's extra component and returns `[3/2]`. -/
theorem c7_dimension_mismatch_counterexample :
    ([[(1 : ℚ)], [2, 3]] : List (List ℚ)).map List.length = [1, 2]
      ∧ length_weighted_mean [[(1 : ℚ)], [2, 3]] [1, 1] = some [3 / 2] := by
  constructor
  · rfl
  · norm_num [length_weighted_mean, lwmStep]

/-- C7 amended: `length_weighted_mean` fails exactly when the input is empty
or some vector zipped with a length is shorter than the first vector; a
vector longer than the first has its extra components silently ignored
(there is no `DimensionMismatch` error); for non-empty inputs of consistent
dimension it never fails. -/
theorem c7_failure_characterization :
    (∀ lengths : List Nat, length_weighted_mean [] lengths = none)
      ∧ (∀ (e : List ℚ) (es : List (List ℚ)) (lengths : List Nat),
          length_weighted_mean (e :: es) lengths = none
            ↔ ∃ p ∈ (e :: es).zip lengths, p.1.length < e.length)
      ∧ ∀ (e : List ℚ) (es : List (List ℚ)) (lengths : List Nat),
          (∀ v ∈ e :: es, v.length = e.length) →
          (length_weighted_mean (e :: es) lengths).isSome = true := by
  have hiff : ∀ (e : List ℚ) (es : List (List ℚ)) (lengths : List Nat),
      length_weighted_mean (e :: es) lengths = none
        ↔ ∃ p ∈ (e :: es).zip lengths, p.1.length < e.length := by
    intro e es lengths
    rw [← lwm_foldl_spec e.length ((e :: es).zip lengths)
      (List.replicate e.length 0, 0)]
    rw [length_weighted_mean]
    cases hfold : ((e :: es).zip lengths).foldl (lwmStep e.length)
        (some (List.replicate e.length 0, 0)) with
    | none => simp [hfold]
    | some acc =>
      simp only [hfold]
      split <;> simp
  refine ⟨fun lengths => rfl, hiff, ?_⟩
  intro e es lengths hdim
  rw [Option.isSome_iff_ne_none]
  intro hnone
  obtain ⟨p, hp, hlen⟩ := (hiff e es lengths).1 hnone
  have hfst : p.1 ∈ e :: es := (List.of_mem_zip hp).1
  rw [hdim p.1 hfst] at hlen
  omega

/-- Witness for the amended C7: a consistent non-empty input succeeds. -/
theorem c7_failure_characterization_witness :
    (∀ v ∈ [[(1 : ℚ), 2]], v.length = 2)
      ∧ (length_weighted_mean [[(1 : ℚ), 2]] [3]).isSome = true :=
  ⟨by decide, c7_failure_characterization.2.2 [(1 : ℚ), 2] [] [3] (by decide)⟩

theorem replicate_zero_step (d : Nat) (w : ℚ) :
    ((List.replicate d (0 : ℚ)).zip (List.replicate d (0 : ℚ))).map
        (fun q => q.1 + q.2 * w) = List.replicate d 0 := by
  induction d with
  | zero => rfl
  | succ d ih => simp [List.replicate_succ, ih]

theorem sumsq_replicate_zero (d : Nat) : sumsq (List.replicate d (0 : ℚ)) = 0 := by
  induction d with
  | zero => rfl
  | succ d ih => simpa [sumsq, List.replicate_succ] using ih

/-- C8: `l2_normalize` divides every component by the (modelled) Euclidean
norm when that norm is strictly positive, and otherwise leaves the vector
unchanged; consequently aggregating a single all-zero vector yields an
all-zero vector with no division performed, using only that the square root
of zero is zero (exact in IEEE arithmetic). -/
theorem c8_zero_norm_safety :
    (∀ (sq : ℚ → ℚ) (v : List ℚ), 0 < sq (sumsq v) →
        l2_normalize sq v = v.map (· / sq (sumsq v)))
      ∧ (∀ (sq : ℚ → ℚ) (v : List ℚ), ¬ 0 < sq (sumsq v) → l2_normalize sq v = v)
      ∧ ∀ sq : ℚ → ℚ, sq 0 = 0 → ∀ d len : Nat,
          length_weighted_mean [List.replicate d (0 : ℚ)] [len]
              = some (List.replicate d 0)
            ∧ l2_normalize sq (List.replicate d (0 : ℚ)) = List.replicate d 0 := by
  refine ⟨fun sq v h => by simp [l2_normalize, h],
    fun sq v h => by simp [l2_normalize, h], ?_⟩
  intro sq hsq d len
  constructor
  · have h1 : ([List.replicate d (0 : ℚ)].zip [len]).foldl
        (lwmStep (List.replicate d (0 : ℚ)).length)
        (some (List.replicate (List.replicate d (0 : ℚ)).length 0, 0))
        = some (List.replicate d (0 : ℚ), (len : ℚ)) := by
      simp only [List.zip_cons_cons, List.zip_nil_left, List.foldl_cons, List.foldl_nil,
        lwmStep, List.length_replicate, le_refl, if_pos, replicate_zero_step]
      norm_num
    rw [length_weighted_mean, h1]
    split
    · rename_i heq
      simp at heq
    · rename_i result wsum heq
      rw [Option.some.injEq, Prod.mk.injEq] at heq
      obtain ⟨hr, hw⟩ := heq
      subst hr
      subst hw
      split
      · rw [List.map_replicate]
        norm_num
      · rfl
  · rw [l2_normalize]
    simp [sumsq_replicate_zero, hsq]

/-- Witness for C8 with the identity as square root (exact at zero) on a
two-dimensional zero vector. -/
theorem c8_zero_norm_safety_witness :
    (fun x : ℚ => x) 0 = 0
      ∧ (length_weighted_mean [List.replicate 2 (0 : ℚ)] [5]
            = some (List.replicate 2 0)
        ∧ l2_normalize (fun x : ℚ => x) (List.replicate 2 (0 : ℚ))
            = List.replicate 2 0) :=
  ⟨rfl, c8_zero_norm_safety.2.2 (fun x => x) rfl 2 5⟩

/-! Lemmas about the ingestion loop. -/

theorem pwrites_append (l₁ l₂ : List Event) :
    pwrites (l₁ ++ l₂) = pwrites l₁ ++ pwrites l₂ :=
  List.filterMap_append l₁ l₂ _

theorem writeAfterUpload_of_not_write (a x : Event)
    (hx : ∀ v, x ≠ Event.progressWrite v) : writeAfterUpload a x = true := by
  cases a <;> cases x <;> simp_all [writeAfterUpload]

theorem headNotWrite_append (l₁ l₂ : List Event) (h1 : headNotWrite l₁ = true)
    (h2 : headNotWrite l₂ = true) : headNotWrite (l₁ ++ l₂) = true := by
  cases l₁ with
  | nil => exact h2
  | cons e l => cases e <;> simpa [headNotWrite] using h1

theorem link_of_headNotWrite (x : Event) (l : List Event)
    (h : headNotWrite l = true) : ∀ y ∈ l.head?, writeAfterUpload x y = true := by
  cases l with
  | nil => simp
  | cons e l =>
    intro y hy
    simp only [List.head?_cons, Option.mem_def, Option.some.injEq] at hy
    subst hy
    cases e with
    | embed ds => exact writeAfterUpload_of_not_write _ _ (by simp)
    | upload ids => exact writeAfterUpload_of_not_write _ _ (by simp)
    | progressWrite v => simp [headNotWrite] at h

theorem chain_append_block (l₁ l₂ : List Event)
    (h1 : List.Chain' (fun a b => writeAfterUpload a b = true) l₁)
    (h2 : List.Chain' (fun a b => writeAfterUpload a b = true) l₂)
    (hhead : headNotWrite l₂ = true) :
    List.Chain' (fun a b => writeAfterUpload a b = true) (l₁ ++ l₂) := by
  rw [List.chain'_append]
  exact ⟨h1, h2, fun x _ => link_of_headNotWrite x l₂ hhead⟩

theorem stepDoc_skip (strip : Str → Str) (bs p : Nat) (st : IngestState)
    (d : Nat × Case) (h : d.1 ≤ p) : stepDoc strip bs p st d = (st, []) := by
  simp [stepDoc, h]

theorem stepDoc_wrong_type (strip : Str → Str) (bs p : Nat) (st : IngestState)
    (d : Nat × Case) (h1 : ¬ d.1 ≤ p) (h2 : d.2.case_type ≠ "刑事案件".data) :
    stepDoc strip bs p st d = (st, []) := by
  simp [stepDoc, h1, h2]

theorem stepDoc_empty_text (strip : Str → Str) (bs p : Nat) (st : IngestState)
    (d : Nat × Case) (h1 : ¬ d.1 ≤ p) (h2 : d.2.case_type = "刑事案件".data)
    (h3 : d.2.full_text = []) : stepDoc strip bs p st d = (st, []) := by
  simp [stepDoc, h1, h2, h3]

theorem stepDoc_single_noflush (strip : Str → Str) (bs p : Nat) (st : IngestState)
    (d : Nat × Case) (h1 : ¬ d.1 ≤ p) (h2 : d.2.case_type = "刑事案件".data)
    (h3 : d.2.full_text ≠ [])
    (hc : (chunk_chinese_text_backward (strip d.2.full_text) 512 512).length = 1)
    (hlen : st.documents.length + 1 < bs) :
    stepDoc strip bs p st d
      = (⟨st.documents ++ chunk_chinese_text_backward (strip d.2.full_text) 512 512,
          st.ids ++ [d.1], st.lengths⟩, []) := by
  simp only [stepDoc, h1, if_false, h2, h3, hc, if_true, ne_eq, not_true_eq_false,
    not_false_eq_true, ite_false, ite_true]
  rw [if_neg]
  simp only [List.length_append, hc]
  omega

theorem stepDoc_single_flush (strip : Str → Str) (bs p : Nat) (st : IngestState)
    (d : Nat × Case) (h1 : ¬ d.1 ≤ p) (h2 : d.2.case_type = "刑事案件".data)
    (h3 : d.2.full_text ≠ [])
    (hc : (chunk_chinese_text_backward (strip d.2.full_text) 512 512).length = 1)
    (hlen : bs ≤ st.documents.length + 1) :
    stepDoc strip bs p st d
      = (⟨[], [], st.lengths⟩,
          [Event.embed (st.documents
              ++ chunk_chinese_text_backward (strip d.2.full_text) 512 512),
            Event.upload (st.ids ++ [d.1]), Event.progressWrite d.1]) := by
  simp only [stepDoc, h1, if_false, h2, h3, hc, if_true, ne_eq, not_true_eq_false,
    not_false_eq_true, ite_false, ite_true]
  rw [if_pos (show bs ≤ (st.documents
      ++ chunk_chinese_text_backward (strip d.2.full_text) 512 512).length by
    simp only [List.length_append, hc]
    omega)]
  simp

theorem stepDoc_multi (strip : Str → Str) (bs p : Nat) (st : IngestState)
    (d : Nat × Case) (h1 : ¬ d.1 ≤ p) (h2 : d.2.case_type = "刑事案件".data)
    (h3 : d.2.full_text ≠ [])
    (hc : (chunk_chinese_text_backward (strip d.2.full_text) 512 512).length ≠ 1)
    (hlen : st.documents.length < bs) :
    stepDoc strip bs p st d
      = (⟨st.documents, st.ids, st.lengths
            ++ (chunk_chinese_text_backward (strip d.2.full_text) 512 512).map utf8Len⟩,
          [Event.embed st.documents, Event.upload [d.1]]) := by
  simp only [stepDoc, h1, if_false, h2, h3, hc, if_true, ne_eq, not_true_eq_false,
    not_false_eq_true, ite_false, ite_true]
  rw [if_neg]
  omega

/-- Filtering by a predicate only shrinks the list in the sublist order when
a head is dropped. -/
theorem filter_cons_sublist {α : Type} (q : α → Bool) (a : α) (l : List α) :
    List.Sublist (l.filter q) ((a :: l).filter q) := by
  rw [List.filter_cons]
  split
  · exact List.sublist_cons_self a _ |>.trans (List.Sublist.refl _) |>.trans
      (List.Sublist.refl _)
  · exact List.Sublist.refl _

/-- Main invariant lemma for the ingestion loop: assuming at least one
document per batch, an accurate pending batch smaller than `batch_size`, and
store iteration in strictly increasing identifier order, the produced trace
writes progress values that form a sublist of the processed identifiers above
the startup progress, every progress write immediately follows the upload of
the batch it names (whose last identifier it stores), and the trace never
begins with a write; the pending batch stays accurate and small. -/
theorem runDocs_spec (strip : Str → Str) (bs p : Nat) (hbs : 1 ≤ bs) :
    ∀ (docs : List (Nat × Case)) (st : IngestState),
    st.documents.length = st.ids.length →
    st.ids.length < bs →
    (st.ids ++ docs.map Prod.fst).Pairwise (· < ·) →
    (∀ i ∈ st.ids, p < i) →
    List.Sublist (pwrites (runDocs strip bs p st docs).2)
        (((docs.map Prod.fst).filter (fun x => decide (p < x))))
      ∧ List.Chain' (fun a b => writeAfterUpload a b = true)
          (runDocs strip bs p st docs).2
      ∧ headNotWrite (runDocs strip bs p st docs).2 = true
      ∧ (runDocs strip bs p st docs).1.documents.length
          = (runDocs strip bs p st docs).1.ids.length
      ∧ (runDocs strip bs p st docs).1.ids.length < bs
      ∧ (∀ i ∈ (runDocs strip bs p st docs).1.ids, p < i) := by
  intro docs
  induction docs with
  | nil =>
    intro st hdl hlen hpw hgt
    simp only [runDocs]
    exact ⟨by simp [pwrites], by simp, rfl, hdl, hlen, hgt⟩
  | cons d ds ih =>
    intro st hdl hlen hpw hgt
    have hpw_ds : (st.ids ++ ds.map Prod.fst).Pairwise (· < ·) := by
      refine List.Pairwise.sublist ?_ hpw
      exact List.Sublist.append_left (List.sublist_cons_self d.1 _) st.ids
    have hstep : ∀ st' evs, stepDoc strip bs p st d = (st', evs) →
        runDocs strip bs p st (d :: ds)
          = ((runDocs strip bs p st' ds).1, evs ++ (runDocs strip bs p st' ds).2) := by
      intro st' evs h
      rw [runDocs, h]
    by_cases hskip : d.1 ≤ p
    · rw [hstep st [] (stepDoc_skip strip bs p st d hskip)]
      obtain ⟨s1, s2, s3, s4, s5, s6⟩ := ih st hdl hlen hpw_ds hgt
      refine ⟨?_, by simpa using s2, by simpa using s3, s4, s5, s6⟩
      simp only [List.nil_append, List.map_cons]
      exact s1.trans (filter_cons_sublist _ _ _)
    · have hgtd : p < d.1 := by omega
      by_cases htype : d.2.case_type = "刑事案件".data
      swap
      · rw [hstep st [] (stepDoc_wrong_type strip bs p st d hskip htype)]
        obtain ⟨s1, s2, s3, s4, s5, s6⟩ := ih st hdl hlen hpw_ds hgt
        refine ⟨?_, by simpa using s2, by simpa using s3, s4, s5, s6⟩
        simp only [List.nil_append, List.map_cons]
        exact s1.trans (filter_cons_sublist _ _ _)
      · by_cases htext : d.2.full_text = []
        · rw [hstep st [] (stepDoc_empty_text strip bs p st d hskip htype htext)]
          obtain ⟨s1, s2, s3, s4, s5, s6⟩ := ih st hdl hlen hpw_ds hgt
          refine ⟨?_, by simpa using s2, by simpa using s3, s4, s5, s6⟩
          simp only [List.nil_append, List.map_cons]
          exact s1.trans (filter_cons_sublist _ _ _)
        · by_cases hone :
              (chunk_chinese_text_backward (strip d.2.full_text) 512 512).length = 1
          · by_cases hflush : bs ≤ st.documents.length + 1
            · -- single-chunk document completing a batch: flush with write
              rw [hstep _ _ (stepDoc_single_flush strip bs p st d hskip htype htext
                hone hflush)]
              have hd' : (⟨[], [], st.lengths⟩ : IngestState).documents.length
                  = (⟨[], [], st.lengths⟩ : IngestState).ids.length := rfl
              have hl' : (⟨[], [], st.lengths⟩ : IngestState).ids.length < bs := by
                simpa using hbs
              have hp' : (([] : List Nat) ++ ds.map Prod.fst).Pairwise (· < ·) := by
                refine List.Pairwise.sublist ?_ hpw
                simp only [List.nil_append]
                exact (List.sublist_append_right st.ids _).trans
                  (List.Sublist.append_left (List.sublist_cons_self d.1 _) st.ids)
              obtain ⟨s1, s2, s3, s4, s5, s6⟩ :=
                ih ⟨[], [], st.lengths⟩ hd' hl' hp' (by simp)
              refine ⟨?_, ?_, by simp [headNotWrite], s4, s5, s6⟩
              · rw [pwrites_append]
                simp only [List.map_cons, List.filter_cons]
                rw [if_pos (by simpa using hgtd)]
                have : pwrites [Event.embed (st.documents
                    ++ chunk_chinese_text_backward (strip d.2.full_text) 512 512),
                    Event.upload (st.ids ++ [d.1]), Event.progressWrite d.1]
                    = [d.1] := rfl
                rw [this]
                exact List.Sublist.cons₂ d.1 s1
              · refine chain_append_block _ _ ?_ s2 s3
                refine List.chain'_cons.2 ⟨?_, List.chain'_cons.2 ⟨?_, ?_⟩⟩
                · rfl
                · simp [writeAfterUpload]
                · simp
            · -- single-chunk document joining the batch: no events
              rw [hstep _ _ (stepDoc_single_noflush strip bs p st d hskip htype htext
                hone (by omega))]
              set st' : IngestState := ⟨st.documents
                ++ chunk_chinese_text_backward (strip d.2.full_text) 512 512,
                st.ids ++ [d.1], st.lengths⟩ with hst'
              have hd' : st'.documents.length = st'.ids.length := by
                simp [hst', hone, hdl]
              have hl' : st'.ids.length < bs := by
                simp only [hst', List.length_append, List.length_cons, List.length_nil]
                omega
              have hp' : (st'.ids ++ ds.map Prod.fst).Pairwise (· < ·) := by
                simpa [hst', List.append_assoc] using hpw
              have hg' : ∀ i ∈ st'.ids, p < i := by
                intro i hi
                simp only [hst', List.mem_append, List.mem_singleton] at hi
                rcases hi with h | h
                · exact hgt i h
                · omega
              obtain ⟨s1, s2, s3, s4, s5, s6⟩ := ih st' hd' hl' hp' hg'
              refine ⟨?_, by simpa using s2, by simpa using s3, s4, s5, s6⟩
              simp only [List.nil_append, List.map_cons]
              exact s1.trans (filter_cons_sublist _ _ _)
          · -- multi-chunk document: immediate embed of the pending batch and
            -- upload under this identifier, no state change, no write
            rw [hstep _ _ (stepDoc_multi strip bs p st d hskip htype htext hone
              (by omega))]
            set st' : IngestState := ⟨st.documents, st.ids, st.lengths
                ++ (chunk_chinese_text_backward (strip d.2.full_text) 512 512).map
                  utf8Len⟩ with hst'
            have hd' : st'.documents.length = st'.ids.length := hdl
            have hl' : st'.ids.length < bs := hlen
            have hp' : (st'.ids ++ ds.map Prod.fst).Pairwise (· < ·) := hpw_ds
            obtain ⟨s1, s2, s3, s4, s5, s6⟩ := ih st' hd' hl' hp' hgt
            refine ⟨?_, ?_, by simp [headNotWrite], s4, s5, s6⟩
            · have : pwrites [Event.embed st.documents, Event.upload [d.1]] = [] := rfl
              rw [pwrites_append, this]
              simp only [List.nil_append, List.map_cons]
              exact s1.trans (filter_cons_sublist _ _ _)
            · refine chain_append_block _ _ ?_ s2 s3
              exact List.chain'_cons.2 ⟨rfl, by simp⟩

/-! Claim theorems for the ingestion loop. -/

/-- C4: over any run of the ingestion loop on a store iterated in strictly
increasing identifier order, the persisted progress values are strictly
increasing and all above the startup value (hence the persisted Progress is
non-decreasing), every progress write stores the identifier of the last
document of the batch flush just completed, and each write immediately
follows that batch's upload in the trace; the trace never begins with a
write, and the final flush performs no write. -/
theorem c4_progress_monotone (strip : Str → Str) (bs p : Nat)
    (docs : List (Nat × Case)) (hbs : 1 ≤ bs)
    (hsorted : (docs.map Prod.fst).Pairwise (· < ·)) :
    (p :: pwrites (runIngestion strip bs p docs).2).Pairwise (· < ·)
      ∧ List.Chain' (fun a b => writeAfterUpload a b = true)
          (runIngestion strip bs p docs).2
      ∧ headNotWrite (runIngestion strip bs p docs).2 = true := by
  obtain ⟨s1, s2, s3, s4, s5, s6⟩ := runDocs_spec strip bs p hbs docs ⟨[], [], []⟩
    rfl (by simpa using hbs) (by simpa using hsorted) (by simp)
  have hpws : ∀ (tr : List Event),
      List.Sublist (pwrites tr) (((docs.map Prod.fst).filter (fun x => decide (p < x)))) →
      (p :: pwrites tr).Pairwise (· < ·) := by
    intro tr hsub
    refine List.pairwise_cons.2 ⟨?_, ?_⟩
    · intro w hw
      have := List.of_mem_filter (hsub.subset hw)
      simpa using this
    · exact List.Pairwise.sublist hsub (List.Pairwise.filter _ hsorted)
  rw [runIngestion]
  split
  · refine ⟨?_, ?_, ?_⟩
    · rw [pwrites_append]
      rw [show pwrites [Event.embed (runDocs strip bs p ⟨[], [], []⟩ docs).1.documents,
          Event.upload (runDocs strip bs p ⟨[], [], []⟩ docs).1.ids] = [] from rfl]
      rw [List.append_nil]
      exact hpws _ s1
    · refine chain_append_block _ _ s2 ?_ rfl
      exact List.chain'_cons.2 ⟨rfl, by simp⟩
    · exact headNotWrite_append _ _ s3 rfl
  · exact ⟨hpws _ s1, s2, s3⟩

/-- Witness for C4: a two-document store with `batch_size = 1` exercises two
flushes and two progress writes. -/
theorem c4_progress_monotone_witness :
    ((1 : Nat) ≤ 1 ∧ ([(1, caseA), (2, caseB)].map Prod.fst).Pairwise (· < ·))
      ∧ ((0 :: pwrites (runIngestion id 1 0 [(1, caseA), (2, caseB)]).2).Pairwise (· < ·)
        ∧ List.Chain' (fun a b => writeAfterUpload a b = true)
            (runIngestion id 1 0 [(1, caseA), (2, caseB)]).2
        ∧ headNotWrite (runIngestion id 1 0 [(1, caseA), (2, caseB)]).2 = true) :=
  ⟨⟨by norm_num, by simp⟩,
    c4_progress_monotone id 1 0 [(1, caseA), (2, caseB)] (by norm_num) (by simp)⟩

set_option maxRecDepth 100000 in
set_option maxHeartbeats 1000000 in
/-- C1 (code bug): on a store holding the pending single-chunk document 1 and
the multi-chunk document 2, document 2's branch produces a trace whose
embedding call receives the pending batch (document 1's chunk) rather than
document 2's own two chunks, while `lengths` accumulates document 2's chunk
byte lengths; the aggregated vector is uploaded under identifier 2. -/
theorem c1_multichunk_embeds_pending_batch :
    (chunk_chinese_text_backward longText 512 512).length = 2
      ∧ (runIngestion id 64 0 [(1, caseA), (2, caseC)]).2
          = [Event.embed ["一。".data], Event.upload [2],
             Event.embed ["一。".data], Event.upload [1]]
      ∧ (runIngestion id 64 0 [(1, caseA), (2, caseC)]).1.lengths = [771, 768]
      ∧ chunk_chinese_text_backward longText 512 512 ≠ ["一。".data] := by
  refine ⟨by decide, by decide, by decide, by decide⟩

end VSearch
